import Mathlib

/-!
# Verification of the Stable Bloom Filter implementation (sbf.go)

Shallow embedding of the Go package sbf (Alfex4936/sbf-go).  Machine
integers are modelled as Nat with explicit % 2^32 / % 2^64 where the
Go code can overflow; a byte slice is a List Nat; fallible Go paths
(run-time panics such as integer division by zero, close of a closed
channel, time.NewTicker with a non-positive duration) are modelled with
explicit result constructors.  Float64 arithmetic in OptimalM, OptimalK
and EstimateFalsePositiveRate is idealised over the reals, keeping the
exceptional values (NaN, +Inf) of Go float division explicit.
-/

namespace SBFGo

/-- Outcome of a Go call: a value together with a nil error, an explicit
non-nil error value, or a run-time panic. -/
inductive GoResult (α : Type) where
  | ok (a : α)
  | err (msg : String)
  | goPanic (msg : String)

/-- The type `Hash64` from `sbf.go`: `func(data []byte) uint64`.  The
concrete algorithm (zeebo/xxh3) is an external collaborator; only the
type matters. -/
def Hash64 : Type := List Nat → Nat

/-- Stand-in for `makeHashFunc` (`sbf.go`): the spec treats the concrete
64-bit hash (xxh3 with `seed`) as an external collaborator, so any fixed
family of functions `bytes → uint64` is a faithful model; the `% 2^64`
keeps the codomain inside `uint64`. -/
def makeHashFunc (seed : Nat) : Hash64 :=
  fun data => (data.foldl (fun a b => a * 31 + b) seed) % 2 ^ 64

/-- The fields of `StableBloomFilter` (`sbf.go`, lines 23–33) that carry
data: `m`, `k`, `decayRate`, `filter`, `numBuckets`, `hashFuncs`.  The
decay ticker, stop channel and wait group are modelled separately by
`Lifecycle`. -/
structure StableBloomFilter where
  m : Nat
  k : Nat
  decayRate : ℚ
  filter : List Nat
  numBuckets : Nat
  hashFuncs : List Hash64

/-- The lifecycle state of the background decay machinery of a filter:
whether `decayTicker.Stop()` has been called and whether `stopChan`
has been closed. -/
structure Lifecycle where
  tickerStopped : Bool
  stopChanClosed : Bool

/-- The `m` rounding step of `NewStableBloomFilter` (`sbf.go`, lines
59–62): `if m%64 != 0 { m += 64 - (m % 64) }` in `uint32` arithmetic,
hence the `% 2^32` (the addition can wrap for `m` within 63 of `2^32`). -/
def roundUpTo64 (m : Nat) : Nat :=
  if m % 64 ≠ 0 then (m + (64 - m % 64)) % 2 ^ 32 else m

/-- The constructor `NewStableBloomFilter` (`sbf.go`, lines 48–82).  No
parameter is validated; `time.NewTicker(decayInterval)` panics when the
interval is not positive (`decayInterval` is in nanoseconds, an `int64`).
The started decay goroutine is modelled by `Lifecycle`/`decay`
separately. -/
def newStableBloomFilter (m0 : Nat) (hashFuncs0 : List Hash64) (decayRate : ℚ)
    (decayInterval : Int) : GoResult StableBloomFilter :=
  let hashFuncs := if hashFuncs0.length = 0 then (List.range 7).map (fun i => makeHashFunc i)
                   else hashFuncs0
  let k := hashFuncs.length
  let m := roundUpTo64 m0
  let numBuckets := m / 64
  if decayInterval ≤ 0 then .goPanic "non-positive interval for NewTicker"
  else .ok { m := m, k := k, decayRate := decayRate,
             filter := List.replicate numBuckets 0,
             numBuckets := numBuckets, hashFuncs := hashFuncs }

/-- The word transformation of `atomicSetBit` (`sbf.go`, lines 269–272):
`mask := uint64(1) << n; *addr |= mask`.  For `n < 64` and a word `< 2^64`
the result stays `< 2^64`. -/
def atomicSetBitWord (w n : Nat) : Nat := w ||| (1 <<< n)

/-- The read of `atomicGetBit` (`sbf.go`, lines 275–278):
`(val & (uint64(1) << n)) != 0`. -/
def atomicGetBitWord (w n : Nat) : Bool := w &&& (1 <<< n) ≠ 0

/-- The function `hashIndex` (`sbf.go`, lines 219–222): `sum :=
hashFuncs[i](data); return uint32(sum % uint64(m))`.  The hash value is
a `uint64` (hence `% 2^64`); `sum % 0` is a Go run-time panic (integer
division by zero), modelled as `none`; the final `uint32` conversion is
the `% 2^32`. -/
def hashIndex (sbf : StableBloomFilter) (data : List Nat) (i : Nat) : Option Nat :=
  if sbf.m = 0 then none
  else some ((sbf.hashFuncs.getD i (fun _ => 0)) data % 2 ^ 64 % sbf.m % 2 ^ 32)

/-- The total value `hashIndex` returns when `m ≠ 0`. -/
def hashIndexVal (sbf : StableBloomFilter) (data : List Nat) (i : Nat) : Nat :=
  (sbf.hashFuncs.getD i (fun _ => 0)) data % 2 ^ 64 % sbf.m % 2 ^ 32

/-- One `atomicSetBit(&sbf.filter[idx/64], idx%64)` call applied to the
filter state (sequential semantics; the lost-update behaviour of the
non-atomic `|=` under concurrency is modelled by `setterStep` below). -/
def setBitIn (sbf : StableBloomFilter) (idx : Nat) : StableBloomFilter :=
  { sbf with
    filter := sbf.filter.set (idx / 64)
      (atomicSetBitWord (sbf.filter.getD (idx / 64) 0) (idx % 64)) }

/-- One `atomicGetBit(&sbf.filter[idx/64], idx%64)` read. -/
def getBitIn (sbf : StableBloomFilter) (idx : Nat) : Bool :=
  atomicGetBitWord (sbf.filter.getD (idx / 64) 0) (idx % 64)

/-- The loop body of `Add` (`sbf.go`, lines 130–137) over the remaining
hash indices `is`; a `none` from `hashIndex` (the `m = 0` division panic)
aborts the call. -/
def addFrom (sbf : StableBloomFilter) (data : List Nat) : List Nat → Option StableBloomFilter
  | [] => some sbf
  | i :: is =>
    match hashIndex sbf data i with
    | none => none
    | some idx => addFrom (setBitIn sbf idx) data is

/-- The method `Add` (`sbf.go`, lines 130–137): `for i := 0; i < k; i++`
setting the bit at `hashIndex(data, i)`. -/
def add (sbf : StableBloomFilter) (data : List Nat) : Option StableBloomFilter :=
  addFrom sbf data (List.range sbf.k)

/-- The loop body of `Check` (`sbf.go`, lines 142–152): returns `false` as
soon as one of the `k` bits is unset, `true` when all are set; `none` is
the `m = 0` division panic. -/
def checkFrom (sbf : StableBloomFilter) (data : List Nat) : List Nat → Option Bool
  | [] => some true
  | i :: is =>
    match hashIndex sbf data i with
    | none => none
    | some idx => if getBitIn sbf idx then checkFrom sbf data is else some false

/-- The method `Check` (`sbf.go`, lines 142–152). -/
def check (sbf : StableBloomFilter) (data : List Nat) : Option Bool :=
  checkFrom sbf data (List.range sbf.k)

/-- The method `StopDecay` (`sbf.go`, lines 157–161): `decayTicker.Stop()`
(safe to repeat), `close(sbf.stopChan)` (a Go run-time panic when the
channel is already closed), then `wg.Wait()` (returns, since the decay
goroutine observes the closed channel and exits). -/
def stopDecay (s : Lifecycle) : GoResult Lifecycle :=
  let s1 : Lifecycle := { s with tickerStopped := true }
  if s1.stopChanClosed then .goPanic "close of closed channel"
  else .ok { s1 with stopChanClosed := true }

/-- The function `bits.TrailingZeros64` for values `< 2^64`: index of the
lowest set bit, `64` for `0`. -/
def trailingZeros64 (n : Nat) : Nat :=
  (List.range 64).findIdx (fun i => n.testBit i)

/-- The Go operator `x &^ y` (AND NOT) on `uint64` operands. -/
def andNot64 (x y : Nat) : Nat := x &&& ((2 ^ 64 - 1) ^^^ y)

/-- The function `decayBucket` (`sbf.go`, lines 281–294), faithfully
including its loop structure: while `bucket != 0`, a Bernoulli trial
(`randSrc.Float64() < decayRate`, the draws modelled as the rational
stream `src` read at position `i`) may clear the lowest set bit, and
`bucket &= bucket - 1` then clears the (possibly new) lowest set bit;
the loop variable itself is returned. -/
def decayBucket (bucket : Nat) (decayRate : ℚ) (src : Nat → ℚ) (i : Nat) : Nat :=
  if h : bucket = 0 then bucket
  else
    let bitPos := trailingZeros64 bucket
    let b1 := if src i < decayRate then andNot64 bucket (1 <<< bitPos) else bucket
    decayBucket (b1 &&& (b1 - 1)) decayRate src (i + 1)
termination_by bucket
decreasing_by
  have hb1 : b1 ≤ bucket := by
    show (if src i < decayRate then andNot64 bucket (1 <<< bitPos) else bucket) ≤ bucket
    split
    · exact Nat.and_le_left
    · exact Nat.le_refl bucket
  calc b1 &&& (b1 - 1) ≤ b1 - 1 := Nat.and_le_right
    _ ≤ bucket - 1 := Nat.sub_le_sub_right hb1 1
    _ < bucket := Nat.sub_lt (Nat.pos_of_ne_zero h) Nat.one_pos

/-- One decay cycle (`decay`, `sbf.go`, lines 238–266): every word `j` of
the filter is loaded, passed through `decayBucket` with the decay rate of
the filter and the pseudo-random stream its worker has reached at that
word (`srcs j`), and stored back. -/
def decay (sbf : StableBloomFilter) (srcs : Nat → Nat → ℚ) : StableBloomFilter :=
  { sbf with
    filter := (List.range sbf.filter.length).map
      (fun j => decayBucket (sbf.filter.getD j 0) sbf.decayRate (srcs j) 0) }

/-- The function `bits.OnesCount64` for a word `< 2^64`. -/
def popCount64 (w : Nat) : Nat := (List.range 64).countP (fun i => w.testBit i)

/-- The accumulation loop of `EstimateFalsePositiveRate` (`sbf.go`, lines
168–171): `bitsSet += uint32(bits.OnesCount64(bucket))` in `uint32`
arithmetic. -/
def countSetBits (sbf : StableBloomFilter) : Nat :=
  sbf.filter.foldl (fun acc w => (acc + popCount64 w) % 2 ^ 32) 0

/-- Sum of per-word population counts, the value `countSetBits` computes
when the `uint32` accumulator cannot wrap. -/
def popSum (l : List Nat) : Nat := (l.map popCount64).sum

/-- A Go `float64` as this code produces it: a finite real, `+Inf`, or
`NaN`. -/
inductive GoFloat where
  | val (x : ℝ)
  | posInf
  | nan

/-- Go float64 division for the nonnegative operands this code produces:
`0.0/0.0` is `NaN`, `x/0.0` with `x > 0` is `+Inf`, otherwise exact. -/
noncomputable def goDiv (x y : ℝ) : GoFloat :=
  if y = 0 then (if x = 0 then .nan else .posInf) else .val (x / y)

/-- The call `math.Pow(b, k)` for a natural exponent: `Pow(x, 0) = 1` for
every `x` (including `NaN` and `+Inf`), and `NaN`/`+Inf` propagate for
`k ≥ 1`. -/
noncomputable def goPow (b : GoFloat) (k : Nat) : GoFloat :=
  match b with
  | .val x => .val (x ^ k)
  | .posInf => if k = 0 then .val 1 else .posInf
  | .nan => if k = 0 then .val 1 else .nan

/-- The method `EstimateFalsePositiveRate` (`sbf.go`, lines 166–176):
`math.Pow(float64(bitsSet)/float64(m), float64(k))`. -/
noncomputable def estimateFalsePositiveRate (sbf : StableBloomFilter) : GoFloat :=
  goPow (goDiv (countSetBits sbf : ℝ) (sbf.m : ℝ)) sbf.k

/-- The function `OptimalM` (`sbf.go`, lines 187–196), float64 arithmetic
idealised over the reals (all claimed outputs are far below the `uint32`
range, so the final conversion is left exact). -/
noncomputable def optimalM (n : Nat) (p : ℝ) : GoResult Nat :=
  if n = 0 then .err "expected number of items n must be greater than 0"
  else if p ≤ 0 ∨ 1 ≤ p then
    .err "false positive rate p must be between 0 and 1 (exclusive)"
  else .ok ⌈-(n : ℝ) * Real.log p / (Real.log 2 * Real.log 2)⌉₊

/-- The function `OptimalK` (`sbf.go`, lines 207–216); `math.Round` on the
nonnegative value `(m/n) * ln 2` is the floor of the value plus one
half. -/
noncomputable def optimalK (m n : Nat) : GoResult Nat :=
  if n = 0 then .err "expected number of items n must be greater than 0"
  else if m = 0 then .err "filter size m must be greater than 0"
  else .ok ⌊(m : ℝ) / (n : ℝ) * Real.log 2 + 1 / 2⌋₊

/-- The two concurrent callers of the interleaving model of
`atomicSetBit`. -/
inductive Tid where
  | A
  | B

/-- Shared word plus the per-caller private register holding the value
each `*addr |= mask` has read (Go compiles the plain `|=` to a separate
load and store; nothing in `atomicSetBit` makes the pair indivisible). -/
structure RaceState where
  word : Nat
  regA : Option Nat
  regB : Option Nat

/-- One scheduler step of caller `t` running `atomicSetBit(&word, n)`:
the first step loads the shared word into the register of the caller, the
second step stores back the register OR-ed with the mask of the caller. -/
def setterStep (nA nB : Nat) (s : RaceState) (t : Tid) : RaceState :=
  match t with
  | .A =>
    match s.regA with
    | none => { s with regA := some s.word }
    | some v => { s with word := atomicSetBitWord v nA }
  | .B =>
    match s.regB with
    | none => { s with regB := some s.word }
    | some v => { s with word := atomicSetBitWord v nB }

/-- Run the two concurrent `atomicSetBit` callers under a schedule. -/
def runSetters (nA nB : Nat) (sched : List Tid) (init : Nat) : RaceState :=
  sched.foldl (setterStep nA nB) ⟨init, none, none⟩

/-- Structural invariants every filter produced by `newStableBloomFilter`
satisfies: the word list has `numBuckets` entries of `uint64` range, `m`
is `64 * numBuckets` and fits in `uint32`, and `k` counts the hash
functions. -/
def StableBloomFilter.WF (s : StableBloomFilter) : Prop :=
  s.filter.length = s.numBuckets ∧ s.m = 64 * s.numBuckets ∧
    s.k = s.hashFuncs.length ∧ s.m < 2 ^ 32 ∧ ∀ w ∈ s.filter, w < 2 ^ 64

/-- The stored `m` of a successful construction, for stating claims about
the constructor without destructing `GoResult`. -/
def resultM (r : GoResult StableBloomFilter) : Option Nat :=
  match r with
  | .ok f => some f.m
  | _ => none

/-- Whether a construction returned a filter with a nil error. -/
def resultOk (r : GoResult StableBloomFilter) : Bool :=
  match r with
  | .ok _ => true
  | _ => false

/-- The false-positive estimate of a successfully constructed filter. -/
noncomputable def resultEstimate (r : GoResult StableBloomFilter) : Option GoFloat :=
  match r with
  | .ok f => some (estimateFalsePositiveRate f)
  | _ => none

/-- A concrete one-word filter (bit 0 clear everywhere, a single constant
hash function hitting index 0) used as a witness input. -/
def sampleFilter : StableBloomFilter :=
  { m := 64, k := 1, decayRate := 0, filter := [0], numBuckets := 1,
    hashFuncs := [fun _ => 0] }

/-- A concrete one-word filter whose word is the alternating pattern
`0xAAAAAAAAAAAAAAAA` (exactly half of the 64 bits set), used as a witness
input. -/
def halfFilter : StableBloomFilter :=
  { m := 64, k := 1, decayRate := 0, filter := [12297829382473034410], numBuckets := 1,
    hashFuncs := [fun _ => 0] }

/-- The state of `sampleFilter` right after an `Add` whose single hash
index is bit 0: word 0 holds the value 1. -/
def addedBitFilter : StableBloomFilter :=
  { m := 64, k := 1, decayRate := 0, filter := [1], numBuckets := 1,
    hashFuncs := [fun _ => 0] }

end SBFGo

namespace SBFGo

/-! ## Supporting lemmas -/

/-- The `decayBucket` loop exits only when its loop variable has reached
zero and then returns that variable, so every call returns `0` — the
decay rate and the random draws never influence the result. -/
theorem decayBucket_eq_zero (bucket : Nat) (rate : ℚ) (src : Nat → ℚ) (i : Nat) :
    decayBucket bucket rate src i = 0 := by
  induction bucket using Nat.strong_induction_on generalizing i with
  | _ bucket ih =>
    rw [decayBucket]
    split
    · assumption
    · rename_i h
      set bitPos := trailingZeros64 bucket with hbp
      set b1 := if src i < rate then andNot64 bucket (1 <<< bitPos) else bucket with hb1def
      apply ih
      have hb1 : b1 ≤ bucket := by
        rw [hb1def]
        split
        · exact Nat.and_le_left
        · exact Nat.le_refl bucket
      calc b1 &&& (b1 - 1) ≤ b1 - 1 := Nat.and_le_right
        _ ≤ bucket - 1 := Nat.sub_le_sub_right hb1 1
        _ < bucket := Nat.sub_lt (Nat.pos_of_ne_zero h) Nat.one_pos

/-- The masked read agrees with `Nat.testBit`. -/
theorem atomicGetBitWord_eq_testBit (w n : Nat) : atomicGetBitWord w n = w.testBit n := by
  unfold atomicGetBitWord
  rw [Nat.one_shiftLeft, Nat.and_two_pow]
  cases h : w.testBit n
  · simp
  · simp [pow_ne_zero]

theorem setBitIn_m (s : StableBloomFilter) (idx : Nat) : (setBitIn s idx).m = s.m := rfl

theorem setBitIn_hashFuncs (s : StableBloomFilter) (idx : Nat) :
    (setBitIn s idx).hashFuncs = s.hashFuncs := rfl

theorem setBitIn_k (s : StableBloomFilter) (idx : Nat) : (setBitIn s idx).k = s.k := rfl

theorem setBitIn_length (s : StableBloomFilter) (idx : Nat) :
    (setBitIn s idx).filter.length = s.filter.length := List.length_set _ _ _

/-- The hash index only depends on `m` and the hash functions. -/
theorem hashIndexVal_congr (s t : StableBloomFilter) (data : List Nat) (i : Nat)
    (hm : t.m = s.m) (hh : t.hashFuncs = s.hashFuncs) :
    hashIndexVal t data i = hashIndexVal s data i := by
  unfold hashIndexVal
  rw [hm, hh]

/-- Setting a bit makes its read true (in-range bucket). -/
theorem getBitIn_setBitIn_self (s : StableBloomFilter) (idx : Nat)
    (h : idx / 64 < s.filter.length) :
    getBitIn (setBitIn s idx) idx = true := by
  unfold getBitIn setBitIn
  rw [atomicGetBitWord_eq_testBit]
  simp only [List.getD_eq_getElem?_getD, List.getElem?_set_self h, Option.getD_some]
  unfold atomicSetBitWord
  rw [Nat.testBit_or, Nat.one_shiftLeft, Nat.testBit_two_pow_self, Bool.or_true]

/-- Setting a bit never clears another bit. -/
theorem getBitIn_setBitIn_mono (s : StableBloomFilter) (idx idx' : Nat)
    (h : getBitIn s idx = true) : getBitIn (setBitIn s idx') idx = true := by
  unfold getBitIn at h ⊢
  unfold setBitIn
  rw [atomicGetBitWord_eq_testBit] at h ⊢
  simp only [List.getD_eq_getElem?_getD, List.getElem?_set] at h ⊢
  by_cases heq : idx' / 64 = idx / 64
  · rw [if_pos heq]
    by_cases hlt : idx' / 64 < s.filter.length
    · rw [if_pos hlt]
      simp only [Option.getD_some]
      unfold atomicSetBitWord
      rw [Nat.testBit_or, heq, h, Bool.true_or]
    · rw [if_neg hlt]
      rw [heq] at hlt
      rw [List.getElem?_eq_none (by omega)] at h
      simp at h
  · rw [if_neg heq]
    exact h

/-- Running the `Add` loop over any index list succeeds when `m ≠ 0`,
preserves the configuration, only adds bits, and sets every targeted
bit. -/
theorem addFrom_ok (data : List Nat) (L : List Nat) :
    ∀ s : StableBloomFilter, s.m ≠ 0 →
    ∃ s', addFrom s data L = some s' ∧
      s'.m = s.m ∧ s'.hashFuncs = s.hashFuncs ∧ s'.k = s.k ∧
      s'.filter.length = s.filter.length ∧
      (∀ idx, getBitIn s idx = true → getBitIn s' idx = true) ∧
      (∀ i ∈ L, hashIndexVal s data i / 64 < s.filter.length →
        getBitIn s' (hashIndexVal s data i) = true) := by
  induction L with
  | nil =>
    intro s hm
    exact ⟨s, rfl, rfl, rfl, rfl, rfl, fun _ h => h, by simp⟩
  | cons i is ih =>
    intro s hm
    have hidx : hashIndex s data i = some (hashIndexVal s data i) := by
      unfold hashIndex hashIndexVal
      rw [if_neg hm]
    obtain ⟨s', hs', h1, h2, h3, h4, h5, h6⟩ :=
      ih (setBitIn s (hashIndexVal s data i)) (by rw [setBitIn_m]; exact hm)
    refine ⟨s', ?_, ?_, ?_, ?_, ?_, ?_, ?_⟩
    · unfold addFrom
      rw [hidx]
      exact hs'
    · rw [h1, setBitIn_m]
    · rw [h2, setBitIn_hashFuncs]
    · rw [h3, setBitIn_k]
    · rw [h4, setBitIn_length]
    · intro idx h
      exact h5 idx (getBitIn_setBitIn_mono s idx _ h)
    · intro j hj hdiv
      rcases List.mem_cons.mp hj with rfl | hj
      · have := getBitIn_setBitIn_self s (hashIndexVal s data j) hdiv
        exact h5 _ this
      · have hval : hashIndexVal (setBitIn s (hashIndexVal s data i)) data j =
            hashIndexVal s data j :=
          hashIndexVal_congr _ _ _ _ (setBitIn_m _ _) (setBitIn_hashFuncs _ _)
        have := h6 j hj (by rw [hval, setBitIn_length]; exact hdiv)
        rw [hval] at this
        exact this

/-- The `Check` loop over an index list answers true exactly when every
targeted bit is set (for `m ≠ 0`). -/
theorem checkFrom_iff (data : List Nat) (L : List Nat) (s : StableBloomFilter) (hm : s.m ≠ 0) :
    checkFrom s data L = some true ↔
      ∀ i ∈ L, getBitIn s (hashIndexVal s data i) = true := by
  induction L with
  | nil => simp [checkFrom]
  | cons i is ih =>
    have hidx : hashIndex s data i = some (hashIndexVal s data i) := by
      unfold hashIndex hashIndexVal
      rw [if_neg hm]
    unfold checkFrom
    rw [hidx]
    show (if getBitIn s (hashIndexVal s data i) = true then checkFrom s data is
        else some false) = some true ↔ _
    by_cases hb : getBitIn s (hashIndexVal s data i) = true
    · rw [if_pos hb]
      rw [ih]
      constructor
      · intro hall j hj
        rcases List.mem_cons.mp hj with rfl | hj
        · exact hb
        · exact hall j hj
      · intro hall j hj
        exact hall j (List.mem_cons_of_mem i hj)
    · rw [if_neg hb]
      simp only [Option.some.injEq]
      constructor
      · intro hfalse
        exact absurd hfalse (by simp)
      · intro hall
        exact absurd (hall i (List.mem_cons_self i is)) hb

/-- With `m = 0` and at least one hash function, `Add` hits the modulo
division by zero on its first iteration. -/
theorem add_of_m_zero (s : StableBloomFilter) (data : List Nat) (hm : s.m = 0) (hk : s.k ≠ 0) :
    add s data = none := by
  unfold add
  obtain ⟨n, hn⟩ : ∃ n, s.k = n + 1 := ⟨s.k - 1, by omega⟩
  rw [hn, List.range_succ_eq_map]
  simp [addFrom, hashIndex, hm]

/-- With `m = 0` and at least one hash function, `Check` hits the modulo
division by zero on its first iteration. -/
theorem check_of_m_zero (s : StableBloomFilter) (data : List Nat) (hm : s.m = 0) (hk : s.k ≠ 0) :
    check s data = none := by
  unfold check
  obtain ⟨n, hn⟩ : ∃ n, s.k = n + 1 := ⟨s.k - 1, by omega⟩
  rw [hn, List.range_succ_eq_map]
  simp [checkFrom, hashIndex, hm]

end SBFGo

namespace SBFGo

/-- Interval bounds for `log (5/4)` from the degree-9 Taylor partial sum
of `-log (1 - 1/5)`. -/
theorem log_five_quarters_bounds :
    (0.2231434 : ℝ) < Real.log (5 / 4) ∧ Real.log (5 / 4) < 0.2231437 := by
  have hx : |(1 / 5 : ℝ)| = 1 / 5 := by rw [abs_of_pos]; norm_num
  have h := Real.abs_log_sub_add_sum_range_le (x := (1 / 5 : ℝ)) (by rw [hx]; norm_num) 9
  rw [hx] at h
  have h45 : (1 : ℝ) - 1 / 5 = 4 / 5 := by norm_num
  rw [h45] at h
  have hlog : Real.log (4 / 5 : ℝ) = -Real.log (5 / 4) := by
    rw [show (4 / 5 : ℝ) = (5 / 4)⁻¹ by norm_num, Real.log_inv]
  rw [hlog] at h
  rw [abs_le] at h
  obtain ⟨h1, h2⟩ := h
  simp only [Finset.sum_range_succ, Finset.sum_range_zero] at h1 h2
  norm_num at h1 h2
  constructor <;> linarith

/-- Decomposition `log 100 = 6 log 2 + 2 log (5/4)` (from
`100 = 2^6 * (5/4)^2`). -/
theorem log_hundred_eq : Real.log 100 = 6 * Real.log 2 + 2 * Real.log (5 / 4) := by
  have h : (100 : ℝ) = 2 ^ 6 * (5 / 4) ^ 2 := by norm_num
  rw [h, Real.log_mul (by norm_num) (by norm_num), Real.log_pow, Real.log_pow]
  push_cast
  ring

/-- Decomposition `log 1000 = 9 log 2 + 3 log (5/4)` (from
`1000 = 2^9 * (5/4)^3`). -/
theorem log_thousand_eq : Real.log 1000 = 9 * Real.log 2 + 3 * Real.log (5 / 4) := by
  have h : (1000 : ℝ) = 2 ^ 9 * (5 / 4) ^ 3 := by norm_num
  rw [h, Real.log_mul (by norm_num) (by norm_num), Real.log_pow, Real.log_pow]
  push_cast
  ring

theorem optimalM_1000_100 : optimalM 1000 (1 / 100) = .ok 9586 := by
  unfold optimalM
  rw [if_neg (by norm_num), if_neg (by norm_num)]
  congr 1
  have hL1 := Real.log_two_gt_d9
  have hL2 := Real.log_two_lt_d9
  have hC := log_five_quarters_bounds
  have hL0 : (0 : ℝ) < Real.log 2 := by linarith
  have hLL : (0 : ℝ) < Real.log 2 * Real.log 2 := mul_pos hL0 hL0
  have hLLlo : (0.6931471803 : ℝ) * 0.6931471803 < Real.log 2 * Real.log 2 := by nlinarith
  have hLLhi : Real.log 2 * Real.log 2 < (0.6931471808 : ℝ) * 0.6931471808 := by nlinarith
  have hinv : Real.log ((1 : ℝ) / 100) = -Real.log 100 := by rw [one_div, Real.log_inv]
  rw [Nat.ceil_eq_iff (by norm_num)]
  rw [hinv, log_hundred_eq]
  constructor
  · rw [lt_div_iff₀ hLL]
    push_cast
    nlinarith [hC.1]
  · rw [div_le_iff₀ hLL]
    push_cast
    nlinarith [hC.2]

theorem optimalM_1000_1000 : optimalM 1000 (1 / 1000) = .ok 14378 := by
  unfold optimalM
  rw [if_neg (by norm_num), if_neg (by norm_num)]
  congr 1
  have hL1 := Real.log_two_gt_d9
  have hL2 := Real.log_two_lt_d9
  have hC := log_five_quarters_bounds
  have hL0 : (0 : ℝ) < Real.log 2 := by linarith
  have hLL : (0 : ℝ) < Real.log 2 * Real.log 2 := mul_pos hL0 hL0
  have hLLlo : (0.6931471803 : ℝ) * 0.6931471803 < Real.log 2 * Real.log 2 := by nlinarith
  have hLLhi : Real.log 2 * Real.log 2 < (0.6931471808 : ℝ) * 0.6931471808 := by nlinarith
  have hinv : Real.log ((1 : ℝ) / 1000) = -Real.log 1000 := by rw [one_div, Real.log_inv]
  rw [Nat.ceil_eq_iff (by norm_num)]
  rw [hinv, log_thousand_eq]
  constructor
  · rw [lt_div_iff₀ hLL]
    push_cast
    nlinarith [hC.1]
  · rw [div_le_iff₀ hLL]
    push_cast
    nlinarith [hC.2]

theorem optimalM_err_iff (n : Nat) (p : ℝ) :
    (∃ msg, optimalM n p = .err msg) ↔ (n = 0 ∨ p ≤ 0 ∨ 1 ≤ p) := by
  unfold optimalM
  by_cases hn : n = 0
  · simp [hn]
  · rw [if_neg hn]
    by_cases hp : p ≤ 0 ∨ 1 ≤ p
    · simp [hp, if_pos hp, hn]
    · simp [hp, if_neg hp, hn]

theorem optimalK_9586 : optimalK 9586 1000 = .ok 7 := by
  unfold optimalK
  rw [if_neg (by norm_num), if_neg (by norm_num)]
  congr 1
  have hL1 := Real.log_two_gt_d9
  have hL2 := Real.log_two_lt_d9
  rw [Nat.floor_eq_iff (by push_cast; nlinarith)]
  push_cast
  constructor <;> nlinarith

theorem optimalK_14378 : optimalK 14378 1000 = .ok 10 := by
  unfold optimalK
  rw [if_neg (by norm_num), if_neg (by norm_num)]
  congr 1
  have hL1 := Real.log_two_gt_d9
  have hL2 := Real.log_two_lt_d9
  rw [Nat.floor_eq_iff (by push_cast; nlinarith)]
  push_cast
  constructor <;> nlinarith

theorem optimalK_err_iff (m n : Nat) :
    (∃ msg, optimalK m n = .err msg) ↔ (m = 0 ∨ n = 0) := by
  unfold optimalK
  by_cases hn : n = 0
  · simp [hn]
  · rw [if_neg hn]
    by_cases hm : m = 0
    · simp [hm, hn]
    · rw [if_neg hm]
      simp [hm, hn]

theorem popCount64_le (w : Nat) : popCount64 w ≤ 64 := by
  unfold popCount64
  calc (List.range 64).countP (fun i => w.testBit i) ≤ (List.range 64).length :=
        List.countP_le_length _
    _ = 64 := by simp

theorem popCount64_zero : popCount64 0 = 0 := by decide

theorem popCount64_allOnes : popCount64 (2 ^ 64 - 1) = 64 := by
  unfold popCount64
  rw [List.countP_eq_length.mpr]
  · simp
  · intro a ha
    rw [Nat.testBit_two_pow_sub_one]
    simpa using List.mem_range.mp ha

theorem popSum_le (l : List Nat) : popSum l ≤ 64 * l.length := by
  induction l with
  | nil => simp [popSum]
  | cons w ws ih =>
    have := popCount64_le w
    simp only [popSum, List.map_cons, List.sum_cons, List.length_cons] at *
    omega

theorem popSum_allOnes (l : List Nat) (h : ∀ w ∈ l, w = 2 ^ 64 - 1) :
    popSum l = 64 * l.length := by
  induction l with
  | nil => simp [popSum]
  | cons w ws ih =>
    simp only [popSum, List.map_cons, List.sum_cons, List.length_cons] at *
    rw [h w (List.mem_cons_self w ws), popCount64_allOnes,
      ih (fun x hx => h x (List.mem_cons_of_mem _ hx))]
    ring

/-- When the running total stays below `2^32`, the `uint32` accumulation
of `countSetBits` computes the plain sum of population counts. -/
theorem countWords_eq (l : List Nat) : ∀ acc : Nat, acc + popSum l < 2 ^ 32 →
    l.foldl (fun acc w => (acc + popCount64 w) % 2 ^ 32) acc = acc + popSum l := by
  induction l with
  | nil => intro acc _; simp [popSum]
  | cons w ws ih =>
    intro acc h
    have hsum : popSum (w :: ws) = popCount64 w + popSum ws := by
      simp [popSum]
    rw [hsum] at h
    rw [List.foldl_cons]
    have h1 : (acc + popCount64 w) % 2 ^ 32 = acc + popCount64 w :=
      Nat.mod_eq_of_lt (by omega)
    rw [h1, ih (acc + popCount64 w) (by omega), hsum]
    omega

theorem countSetBits_eq (s : StableBloomFilter) (h : popSum s.filter < 2 ^ 32) :
    countSetBits s = popSum s.filter := by
  unfold countSetBits
  rw [countWords_eq s.filter 0 (by omega)]
  omega

theorem goDiv_val (x y : ℝ) (hy : y ≠ 0) : goDiv x y = .val (x / y) := by
  unfold goDiv
  rw [if_neg hy]

theorem goPow_val (x : ℝ) (k : Nat) : goPow (.val x) k = .val (x ^ k) := rfl

/-- On a filter with `m ≠ 0` the estimate is the finite real
`(bitsSet / m) ^ k`. -/
theorem estimate_val (s : StableBloomFilter) (hm : s.m ≠ 0) :
    estimateFalsePositiveRate s =
      .val (((countSetBits s : ℝ) / (s.m : ℝ)) ^ s.k) := by
  unfold estimateFalsePositiveRate
  rw [goDiv_val _ _ (by exact_mod_cast hm), goPow_val]

end SBFGo

namespace SBFGo

/-! ## Claim theorems -/

/-- C1: the claim says that with decayRate = 0 a decay cycle changes
nothing — decayBucket returns every word unchanged, so added elements
keep reading true.  The code instead returns its loop variable, which is
zero when the loop exits: decayBucket(1, 0, src) evaluates to 0, and
after one decay cycle at rate 0 a just-added element fails Check. -/
theorem C1_decay_clears_despite_zero_rate :
    decayBucket 1 0 (fun _ => 0) 0 = 0 ∧
    check addedBitFilter [] = some true ∧
    check (decay addedBitFilter (fun _ _ => 0)) [] = some false := by
  refine ⟨decayBucket_eq_zero 1 0 (fun _ => 0) 0, rfl, ?_⟩
  have h : decay addedBitFilter (fun _ _ => 0) = sampleFilter := by
    simp [decay, addedBitFilter, sampleFilter, decayBucket_eq_zero]
  rw [h]
  rfl

/-- C2: the claim says atomicSetBit performs a true atomic
read-modify-write, so two concurrent callers setting different bits of
one word never lose an update.  The implementation is a plain non-atomic
load/OR/store; under the schedule A-load, B-load, A-store, B-store with
bit positions 0 and 1 on an initially zero word, the final word is 2 —
the bit of caller A is lost — while serial execution ends at 3. -/
theorem C2_plain_or_loses_concurrent_update :
    (runSetters 0 1 [Tid.A, Tid.B, Tid.A, Tid.B] 0).word = 2 ∧
    (runSetters 0 1 [Tid.A, Tid.B, Tid.A, Tid.B] 0).word ≠
      (0 ||| (1 <<< 0)) ||| (1 <<< 1) ∧
    (runSetters 0 1 [Tid.A, Tid.A, Tid.B, Tid.B] 0).word = 3 :=
  ⟨rfl, by decide, rfl⟩

/-- C3: counterexample to the claim that NewStableBloomFilter returns an
explicit error value for every invalid input and never panics — the
invalid input (bit size 0, decay rate 2, interval 1) is accepted with a
nil error, and a zero decay interval panics inside time.NewTicker
instead of returning an error. -/
theorem C3_counterexample :
    resultOk (newStableBloomFilter 0 [fun _ => 0] 2 1) = true ∧
    newStableBloomFilter 0 [fun _ => 0] 2 0 =
      .goPanic "non-positive interval for NewTicker" :=
  ⟨rfl, rfl⟩

/-- C3 (amended): NewStableBloomFilter performs no validation at all —
for every input with a positive decay interval, including bit size 0 and
decay rates outside [0, 1], it returns a filter with a nil error; only a
non-positive decay interval aborts the call, and as a panic rather than
an error. -/
theorem C3_no_validation_returns_ok (m0 : Nat) (hf : List Hash64) (rate : ℚ)
    (iv : Int) (hiv : 0 < iv) :
    ∃ f, newStableBloomFilter m0 hf rate iv = .ok f ∧ f.m = roundUpTo64 m0 := by
  unfold newStableBloomFilter
  rw [if_neg (by omega)]
  exact ⟨_, rfl, rfl⟩

/-- Witness for C3: the no-validation theorem applied at the invalid
input (bit size 0, decay rate 2, interval 1). -/
theorem C3_no_validation_witness :
    ∃ f, newStableBloomFilter 0 [fun _ => 0] 2 1 = .ok f ∧ f.m = roundUpTo64 0 :=
  C3_no_validation_returns_ok 0 [fun _ => 0] 2 1 (by norm_num)

/-- C4: counterexample to the claim that StopDecay is an idempotent-safe
teardown — the first call succeeds, but a second call after the first
has returned panics on closing the already closed stop channel. -/
theorem C4_counterexample :
    stopDecay { tickerStopped := false, stopChanClosed := false } =
      .ok { tickerStopped := true, stopChanClosed := true } ∧
    stopDecay { tickerStopped := true, stopChanClosed := true } =
      .goPanic "close of closed channel" :=
  ⟨rfl, rfl⟩

/-- C4 (amended): StopDecay is safe to call exactly once — the first
call on a freshly constructed filter stops the ticker, closes the stop
channel and returns without fault. -/
theorem C4_first_stop_ok :
    stopDecay { tickerStopped := false, stopChanClosed := false } =
      .ok { tickerStopped := true, stopChanClosed := true } := rfl

/-- C5: OptimalM computes the ceiling of -n ln p / (ln 2)^2 —
OptimalM(1000, 0.01) = 9586 and OptimalM(1000, 0.001) = 14378 — and it
returns an invalid-parameter error exactly when n = 0 or p is not
strictly inside (0, 1). -/
theorem C5_optimalM_spec :
    optimalM 1000 (1 / 100) = .ok 9586 ∧
    optimalM 1000 (1 / 1000) = .ok 14378 ∧
    ∀ (n : Nat) (p : ℝ), (∃ msg, optimalM n p = .err msg) ↔ (n = 0 ∨ p ≤ 0 ∨ 1 ≤ p) :=
  ⟨optimalM_1000_100, optimalM_1000_1000, optimalM_err_iff⟩

/-- C6: OptimalK computes (m/n) ln 2 rounded to nearest —
OptimalK(9586, 1000) = 7 and OptimalK(14378, 1000) = 10 — and it returns
an invalid-parameter error exactly when m = 0 or n = 0. -/
theorem C6_optimalK_spec :
    optimalK 9586 1000 = .ok 7 ∧
    optimalK 14378 1000 = .ok 10 ∧
    ∀ m n : Nat, (∃ msg, optimalK m n = .err msg) ↔ (m = 0 ∨ n = 0) :=
  ⟨optimalK_9586, optimalK_14378, optimalK_err_iff⟩

/-- C7: counterexample to the claim that for every requested bit size the
stored m is the request rounded up to the next multiple of 64 —
requesting 4294967295 bits (the maximal uint32) wraps the uint32
addition and stores m = 0, which is below the request rather than the
next multiple 4294967296. -/
theorem C7_counterexample :
    resultM (newStableBloomFilter 4294967295 [fun _ => 0] 0 1) = some 0 ∧
    (0 : Nat) < 4294967295 :=
  ⟨rfl, by norm_num⟩

/-- C7 (amended): for every request in uint32 range the stored m is a
multiple of 64; whenever the request is at most 2^32 - 64 it is exactly
the least multiple of 64 not below the request (so 100 becomes 128); for
larger requests the uint32 addition wraps; and whenever the constructor
returns it stores roundUpTo64 of the request. -/
theorem C7_roundUp_spec (m0 : Nat) (h32 : m0 < 2 ^ 32) :
    64 ∣ roundUpTo64 m0 ∧
    (m0 ≤ 2 ^ 32 - 64 →
      roundUpTo64 m0 = 64 * ((m0 + 63) / 64) ∧ m0 ≤ roundUpTo64 m0 ∧
        roundUpTo64 m0 < m0 + 64) ∧
    (∀ (hf : List Hash64) (rate : ℚ) (iv : Int), 0 < iv →
      resultM (newStableBloomFilter m0 hf rate iv) = some (roundUpTo64 m0)) ∧
    roundUpTo64 100 = 128 := by
  refine ⟨?_, ?_, ?_, by decide⟩
  · unfold roundUpTo64
    split <;> omega
  · intro hle
    unfold roundUpTo64
    split <;> refine ⟨?_, ?_, ?_⟩ <;> omega
  · intro hf rate iv hiv
    unfold newStableBloomFilter resultM
    rw [if_neg (by omega)]

/-- Witness for C7: the amended rounding theorem applied at request
100. -/
theorem C7_roundUp_witness :
    64 ∣ roundUpTo64 100 ∧
    (100 ≤ 2 ^ 32 - 64 →
      roundUpTo64 100 = 64 * ((100 + 63) / 64) ∧ 100 ≤ roundUpTo64 100 ∧
        roundUpTo64 100 < 100 + 64) ∧
    (∀ (hf : List Hash64) (rate : ℚ) (iv : Int), 0 < iv →
      resultM (newStableBloomFilter 100 hf rate iv) = some (roundUpTo64 100)) ∧
    roundUpTo64 100 = 128 :=
  C7_roundUp_spec 100 (by norm_num)

/-- C8: Check answers true exactly when each of the k addressed bits is
set, and on every well-formed filter with m ≥ 1 a Check immediately
after an Add of the same element (no decay in between) answers true. -/
theorem C8_check_iff_and_add_then_check (s : StableBloomFilter) (data : List Nat)
    (hwf : s.WF) (hm : 1 ≤ s.m) :
    (check s data = some true ↔
      ∀ i < s.k, getBitIn s (hashIndexVal s data i) = true) ∧
    (∃ s', add s data = some s' ∧ check s' data = some true) := by
  obtain ⟨hlen, hm64, hk, h32, hw⟩ := hwf
  have hm0 : s.m ≠ 0 := by omega
  have hdiv : ∀ data' i, hashIndexVal s data' i / 64 < s.filter.length := by
    intro data' i
    have h1 : hashIndexVal s data' i < s.m := by
      unfold hashIndexVal
      calc _ ≤ _ % 2 ^ 64 % s.m := Nat.mod_le _ _
        _ < s.m := Nat.mod_lt _ (by omega)
    rw [Nat.div_lt_iff_lt_mul (by norm_num), hlen]
    omega
  constructor
  · unfold check
    rw [checkFrom_iff data _ s hm0]
    constructor
    · intro hall i hi
      exact hall i (List.mem_range.mpr hi)
    · intro hall i hi
      exact hall i (List.mem_range.mp hi)
  · obtain ⟨s', hs', h1, h2, h3, h4, h5, h6⟩ := addFrom_ok data (List.range s.k) s hm0
    refine ⟨s', hs', ?_⟩
    unfold check
    rw [h3, checkFrom_iff data _ s' (by omega)]
    intro i hi
    have hval : hashIndexVal s' data i = hashIndexVal s data i :=
      hashIndexVal_congr _ _ _ _ h1 h2
    rw [hval]
    exact h6 i hi (hdiv data i)

/-- Witness for C8: the Check/Add theorem applied to a concrete one-word
filter and the empty byte slice. -/
theorem C8_witness :
    (check sampleFilter [] = some true ↔
      ∀ i < sampleFilter.k, getBitIn sampleFilter (hashIndexVal sampleFilter [] i) = true) ∧
    (∃ s', add sampleFilter [] = some s' ∧ check s' [] = some true) :=
  C8_check_iff_and_add_then_check sampleFilter []
    ⟨rfl, rfl, rfl, by decide, by decide⟩ (by decide)

/-- C9: counterexample to the claim that EstimateFalsePositiveRate
always lies in [0, 1] and returns 0.0 on an all-zero filter — on the
constructible filter of size m = 0 (all-zero, empty word array) the
fraction is the float division 0/0 and the estimate is NaN, which is not
the value 0.0. -/
theorem C9_counterexample :
    resultEstimate (newStableBloomFilter 0 [fun _ => 0] 0 1) = some .nan ∧
    GoFloat.nan ≠ GoFloat.val 0 := by
  have h : estimateFalsePositiveRate
      { m := 0, k := 1, decayRate := 0, filter := [], numBuckets := 0,
        hashFuncs := [fun _ => 0] } = .nan := by
    unfold estimateFalsePositiveRate
    have hc : countSetBits
        { m := 0, k := 1, decayRate := 0, filter := [], numBuckets := 0,
          hashFuncs := [fun _ => 0] } = 0 := rfl
    rw [hc]
    show goPow (goDiv ((0 : Nat) : ℝ) ((0 : Nat) : ℝ)) 1 = .nan
    unfold goDiv
    rw [if_pos (by norm_num), if_pos (by norm_num)]
    rfl
  constructor
  · calc resultEstimate (newStableBloomFilter 0 [fun _ => 0] 0 1)
        = some (estimateFalsePositiveRate
            { m := 0, k := 1, decayRate := 0, filter := [], numBuckets := 0,
              hashFuncs := [fun _ => 0] }) := rfl
      _ = some .nan := by rw [h]
  · intro hcontra
    cases hcontra

/-- C9 (amended): on every well-formed filter with m ≥ 1 and k ≥ 1 the
estimate is the finite real (bitsSet/m)^k and lies in [0, 1]; it is 0 on
an all-zero filter, 1 on a fully saturated filter, and (1/2)^k when
exactly half of the m bits are set.  (The degenerate m = 0 filter
instead yields NaN.) -/
theorem C9_estimate_spec (s : StableBloomFilter) (hwf : s.WF) (hm : 1 ≤ s.m)
    (hk : 1 ≤ s.k) :
    (∃ x : ℝ, estimateFalsePositiveRate s = .val x ∧ 0 ≤ x ∧ x ≤ 1) ∧
    ((∀ w ∈ s.filter, w = 0) → estimateFalsePositiveRate s = .val 0) ∧
    ((∀ w ∈ s.filter, w = 2 ^ 64 - 1) → estimateFalsePositiveRate s = .val 1) ∧
    (2 * countSetBits s = s.m →
      estimateFalsePositiveRate s = .val ((1 / 2 : ℝ) ^ s.k)) := by
  obtain ⟨hlen, hm64, hkf, h32, hw⟩ := hwf
  have hm0 : s.m ≠ 0 := by omega
  have hmR : (0 : ℝ) < (s.m : ℝ) := by exact_mod_cast Nat.pos_of_ne_zero hm0
  have hcount : countSetBits s = popSum s.filter := by
    apply countSetBits_eq
    have := popSum_le s.filter
    omega
  have hle : countSetBits s ≤ s.m := by
    have := popSum_le s.filter
    omega
  refine ⟨⟨_, estimate_val s hm0, ?_, ?_⟩, ?_, ?_, ?_⟩
  · positivity
  · apply pow_le_one₀ (by positivity)
    rw [div_le_one hmR]
    exact_mod_cast hle
  · intro hz
    rw [estimate_val s hm0]
    have h0 : popSum s.filter = 0 := by
      unfold popSum
      rw [List.sum_eq_zero]
      intro x hx
      obtain ⟨w, hw', rfl⟩ := List.mem_map.mp hx
      rw [hz w hw', popCount64_zero]
    rw [hcount, h0]
    congr 1
    rw [Nat.cast_zero, zero_div]
    exact zero_pow (by omega)
  · intro hones
    rw [estimate_val s hm0]
    have h1 : popSum s.filter = 64 * s.filter.length := popSum_allOnes s.filter hones
    rw [hcount, h1, hlen, ← hm64]
    congr 1
    rw [div_self (ne_of_gt hmR), one_pow]
  · intro hhalf
    rw [estimate_val s hm0]
    have hfrac : (countSetBits s : ℝ) / (s.m : ℝ) = 1 / 2 := by
      have h2 : (2 : ℝ) * (countSetBits s : ℝ) = (s.m : ℝ) := by exact_mod_cast hhalf
      field_simp
      linarith
    rw [hfrac]

/-- Witness for C9: the estimate theorem applied to the concrete
one-word filter whose word has exactly half of its bits set. -/
theorem C9_witness :
    (∃ x : ℝ, estimateFalsePositiveRate halfFilter = .val x ∧ 0 ≤ x ∧ x ≤ 1) ∧
    ((∀ w ∈ halfFilter.filter, w = 0) → estimateFalsePositiveRate halfFilter = .val 0) ∧
    ((∀ w ∈ halfFilter.filter, w = 2 ^ 64 - 1) →
      estimateFalsePositiveRate halfFilter = .val 1) ∧
    (2 * countSetBits halfFilter = halfFilter.m →
      estimateFalsePositiveRate halfFilter = .val ((1 / 2 : ℝ) ^ halfFilter.k)) :=
  C9_estimate_spec halfFilter
    ⟨rfl, rfl, rfl, by decide, by decide⟩ (by decide) (by decide)

/-- C10: NewStableBloomFilter accepts requested bit size 0 together with
a non-empty hash-function slice and returns a filter with a nil error
and internal m = 0; on that filter every later Add or Check call hits
the modulo-by-zero run-time fault instead of returning a result. -/
theorem C10_zero_size_add_check_fault (hf : List Hash64) (hne : hf ≠ []) (rate : ℚ)
    (iv : Int) (hiv : 0 < iv) (data : List Nat) :
    ∃ f, newStableBloomFilter 0 hf rate iv = .ok f ∧ f.m = 0 ∧
      add f data = none ∧ check f data = none := by
  have hlen : hf.length ≠ 0 := by
    simpa [List.length_eq_zero] using hne
  unfold newStableBloomFilter
  rw [if_neg (by omega), if_neg hlen]
  refine ⟨_, rfl, rfl, ?_, ?_⟩
  · exact add_of_m_zero _ _ rfl (by simpa using hlen)
  · exact check_of_m_zero _ _ rfl (by simpa using hlen)

/-- Witness for C10: the zero-size theorem applied to a single constant
hash function, rate 0, interval 1 and the empty byte slice. -/
theorem C10_witness :
    ∃ f, newStableBloomFilter 0 [fun _ => 0] 0 1 = .ok f ∧ f.m = 0 ∧
      add f [] = none ∧ check f [] = none :=
  C10_zero_size_add_check_fault [fun _ => 0] (by simp) 0 1 (by norm_num) []

end SBFGo
